import Mathlib

/-!
A shallow embedding of `vigenere.c`, a command-line Vigenère cipher.

Characters are modelled by their ASCII codes, of type `Int`, because the C
program performs the cipher arithmetic on promoted `int` values.  C's `%`
on `int` truncates towards zero, which is `Int.tmod`.  C strings are
modelled as `List Int` (the terminating NUL byte is not part of the list;
the loops in the source treat it as one more non-alphabetic character that
is copied unchanged, which only reproduces the terminator).
-/

deriving instance DecidableEq for Except

namespace Vigenere

/-- C `isupper` on ASCII input: codes 65–90, `A`–`Z`. -/
def isupper (c : Int) : Bool := 65 ≤ c && c ≤ 90

/-- C `islower` on ASCII input: codes 97–122, `a`–`z`. -/
def islower (c : Int) : Bool := 97 ≤ c && c ≤ 122

/-- C `isalpha` on ASCII input. -/
def isalpha (c : Int) : Bool := isupper c || islower c

/-- C `isdigit` on ASCII input: codes 48–57, `0`–`9`. -/
def isdigit (c : Int) : Bool := 48 ≤ c && c ≤ 57

/-- C `toupper` on ASCII input: lowercase letters lose 32, all else is unchanged. -/
def toupper (c : Int) : Int := if islower c then c - 32 else c

/-- `#define CHAR_SPACE 26`. -/
def CHAR_SPACE : Int := 26

/-- `#define ASCII_HIGHER_OFFSET 'A'` (65). -/
def ASCII_HIGHER_OFFSET : Int := 65

/-- `#define ASCII_LOWER_OFFSET (ASCII_HIGHER_OFFSET ^ 0x20)`, i.e. `'a'` (97). -/
def ASCII_LOWER_OFFSET : Int := 97

/-- `typedef enum modes { Encrypt = 0, Decrypt } modes_t;`. -/
inductive Modes
  | Encrypt
  | Decrypt
deriving DecidableEq

/-- `typedef enum docs { Help = 0, Usage } docs_t;`, the two exit paths of
`exit_print_info`: both print the usage line to stderr (`Help` also prints
the help text) and exit with code 1. -/
inductive Docs
  | Help
  | Usage
deriving DecidableEq

/-- The members of `struct config` fixed by `parse_args` (the derived
`output` and `keystream` members are the values returned by the pipeline
functions below). -/
structure Config where
  option : Modes
  message : String
  key : String
deriving DecidableEq

/-- The loop of `generate_keystream`: walking the message, at an alphabetic
position it emits `toupper(key[(key_ctr - key_offset) % key_len])`, where
`key_ctr - key_offset` — carried here as `j` — is the number of alphabetic
characters already passed; at a non-alphabetic position it emits `' '` (32)
and `j` does not advance. -/
def keystreamGo (key : List Int) : List Int → Nat → List Int
  | [], _ => []
  | c :: rest, j =>
    if isalpha c then
      toupper (key.getD (j % key.length) 0) :: keystreamGo key rest (j + 1)
    else
      32 :: keystreamGo key rest j

/-- `generate_keystream`.  When the key is empty and the message contains an
alphabetic character, the C loop evaluates `(key_ctr - key_offset) % key_len`
with `key_len = 0`: an integer division by zero, which has no defined result
(the process is killed on common targets).  That situation has no result to
model and is returned as `none`. -/
def generate_keystream (message key : List Int) : Option (List Int) :=
  if key.length = 0 ∧ message.any isalpha then none
  else some (keystreamGo key message 0)

/-- One character of `encrypt`: a non-alphabetic character passes through
unchanged; otherwise the output is
`((toupper(m) + k) % CHAR_SPACE) + ('A'` or `'a'` by the case of `m)`,
with C's truncating `%`. -/
def encryptChar (m k : Int) : Int :=
  if !isalpha m then m
  else
    Int.tmod (toupper m + k) CHAR_SPACE
      + (if isupper m then ASCII_HIGHER_OFFSET else ASCII_LOWER_OFFSET)

/-- The `encrypt` loop over the message and the keystream. -/
def encrypt (message keystream : List Int) : List Int :=
  List.zipWith encryptChar message keystream

/-- One character of `decrypt`: a non-alphabetic character passes through
unchanged; otherwise the output is
`(((toupper(m) - k) + CHAR_SPACE) % CHAR_SPACE) + ('A'` or `'a')`,
with C's truncating `%`. -/
def decryptChar (m k : Int) : Int :=
  if !isalpha m then m
  else
    Int.tmod (toupper m - k + CHAR_SPACE) CHAR_SPACE
      + (if isupper m then ASCII_HIGHER_OFFSET else ASCII_LOWER_OFFSET)

/-- The `decrypt` loop over the message and the keystream. -/
def decrypt (message keystream : List Int) : List Int :=
  List.zipWith decryptChar message keystream

/-- The mode dispatch in `main`: `Encrypt` runs `encrypt`, otherwise `decrypt`. -/
def applyMode : Modes → List Int → List Int → List Int
  | .Encrypt => encrypt
  | .Decrypt => decrypt

/-- `generate_keystream` followed by the selected cipher transform, exactly
as `main` runs them on a parsed configuration. -/
def transform (mode : Modes) (message key : List Int) : Option (List Int) :=
  (generate_keystream message key).map (applyMode mode message)

/-- The ASCII codes of a command-line string, as the cipher sees them. -/
def codes (s : String) : List Int := s.toList.map (fun c => (c.toNat : Int))

/-- `strncmp(arg, flag, strlen(arg)) == 0`, the comparison `parse_args`
applies to each flag position: it is true exactly when `arg` is a prefix of
`flag` (the comparison stops after `strlen(arg)` bytes, or earlier at a
mismatch with `flag`'s NUL terminator). -/
def flagMatch (arg flag : String) : Bool := List.isPrefixOf arg.toList flag.toList

/-- `parse_args`.  `Except.error d` models a call of `exit_print_info d`:
usage (plus help text when `d = Help`) on stderr and exit code 1, with no
output produced.  The C code checks, in order: the argument count, the
`-h`/empty-message forms of `argv[1]`, the `-m` flag with a digit first
character of its value (`option = argv[3][0] % 2`), and the `-k` flag. -/
def parse_args (argv : List String) : Except Docs Config :=
  if argv.length < 2 then .error .Usage
  else if flagMatch (argv.getD 1 "") "-h" then .error .Help
  else if argv.getD 1 "" = "" then .error .Usage
  else
    if argv.length > 3 ∧ flagMatch (argv.getD 2 "") "-m" then
      if isdigit ((codes (argv.getD 3 "")).getD 0 0) then
        if argv.length > 5 ∧ flagMatch (argv.getD 4 "") "-k" then
          .ok
            ⟨if Int.tmod ((codes (argv.getD 3 "")).getD 0 0) 2 = 0 then .Encrypt
              else .Decrypt,
             argv.getD 1 "", argv.getD 5 ""⟩
        else .error .Usage
      else .error .Usage
    else .error .Usage

/-- The whole program: `parse_args`, then `generate_keystream`, then the
selected transform.  `Except.ok (some out)` prints `out` and exits 0;
`Except.ok none` is the undefined empty-key division-by-zero path. -/
def run (argv : List String) : Except Docs (Option (List Int)) :=
  match parse_args argv with
  | .error d => .error d
  | .ok cfg => .ok (transform cfg.option (codes cfg.message) (codes cfg.key))

/-- The spec's "position in the alphabet, range 0–25" of a letter,
case-insensitively. -/
def alphaPos (c : Int) : Int := toupper c - 65

/-- The number of alphabetic characters of `message` strictly before
index `i` (the spec's running index `j` over alphabetic positions). -/
def alphaCountBefore (message : List Int) (i : Nat) : Nat :=
  (message.take i).countP isalpha

/-- An ASCII code: 0–127. -/
def isAscii (c : Int) : Bool := 0 ≤ c && c ≤ 127

/-! Characterisations of the character classifiers. -/

lemma isupper_iff {c : Int} : isupper c = true ↔ 65 ≤ c ∧ c ≤ 90 := by
  simp [isupper]

lemma islower_iff {c : Int} : islower c = true ↔ 97 ≤ c ∧ c ≤ 122 := by
  simp [islower]

lemma isalpha_iff {c : Int} :
    isalpha c = true ↔ (65 ≤ c ∧ c ≤ 90) ∨ (97 ≤ c ∧ c ≤ 122) := by
  simp [isalpha, isupper, islower]

lemma isdigit_iff {c : Int} : isdigit c = true ↔ 48 ≤ c ∧ c ≤ 57 := by
  simp [isdigit]

lemma toupper_of_upper {c : Int} (h1 : 65 ≤ c) (h2 : c ≤ 90) : toupper c = c := by
  have h : islower c = false := by simp [islower]; omega
  simp [toupper, h]

lemma toupper_of_lower {c : Int} (h1 : 97 ≤ c) (h2 : c ≤ 122) : toupper c = c - 32 := by
  have h : islower c = true := by simp [islower]; omega
  simp [toupper, h]

lemma isupper_of_bounds {c : Int} (h1 : 65 ≤ c) (h2 : c ≤ 90) : isupper c = true := by
  simp [isupper]; omega

lemma islower_of_bounds {c : Int} (h1 : 97 ≤ c) (h2 : c ≤ 122) : islower c = true := by
  simp [islower]; omega

lemma isupper_false_of_lower {c : Int} (h1 : 97 ≤ c) (h2 : c ≤ 122) :
    isupper c = false := by
  simp [isupper]; omega

lemma islower_false_of_upper {c : Int} (h1 : 65 ≤ c) (h2 : c ≤ 90) :
    islower c = false := by
  simp [islower]; omega

lemma isalpha_of_upper {c : Int} (h1 : 65 ≤ c) (h2 : c ≤ 90) : isalpha c = true := by
  simp [isalpha, isupper, islower]; omega

lemma isalpha_of_lower {c : Int} (h1 : 97 ≤ c) (h2 : c ≤ 122) : isalpha c = true := by
  simp [isalpha, isupper, islower]; omega

/-! Closed forms for the per-character transforms. -/

lemma encryptChar_notalpha {m : Int} (k : Int) (h : isalpha m = false) :
    encryptChar m k = m := by
  simp [encryptChar, h]

lemma decryptChar_notalpha {m : Int} (k : Int) (h : isalpha m = false) :
    decryptChar m k = m := by
  simp [decryptChar, h]

lemma encryptChar_upper {m k : Int} (h1 : 65 ≤ m) (h2 : m ≤ 90) (hk : 0 ≤ k) :
    encryptChar m k = (m + k) % 26 + 65 := by
  simp only [encryptChar, isalpha_of_upper h1 h2, isupper_of_bounds h1 h2,
    toupper_of_upper h1 h2, Bool.not_true, Bool.false_eq_true, if_false, if_true,
    CHAR_SPACE, ASCII_HIGHER_OFFSET]
  rw [Int.tmod_eq_emod (by omega) (by omega)]

lemma encryptChar_lower {m k : Int} (h1 : 97 ≤ m) (h2 : m ≤ 122) (hk : 0 ≤ k) :
    encryptChar m k = (m - 32 + k) % 26 + 97 := by
  simp only [encryptChar, isalpha_of_lower h1 h2, isupper_false_of_lower h1 h2,
    toupper_of_lower h1 h2, Bool.not_true, Bool.false_eq_true, if_false, if_true,
    CHAR_SPACE, ASCII_LOWER_OFFSET]
  rw [Int.tmod_eq_emod (by omega) (by omega)]

lemma decryptChar_upper {m k : Int} (h1 : 65 ≤ m) (h2 : m ≤ 90) (hk : k ≤ 91) :
    decryptChar m k = (m - k + 26) % 26 + 65 := by
  simp only [decryptChar, isalpha_of_upper h1 h2, isupper_of_bounds h1 h2,
    toupper_of_upper h1 h2, Bool.not_true, Bool.false_eq_true, if_false, if_true,
    CHAR_SPACE, ASCII_HIGHER_OFFSET]
  rw [Int.tmod_eq_emod (by omega) (by omega)]

lemma decryptChar_lower {m k : Int} (h1 : 97 ≤ m) (h2 : m ≤ 122) (hk : k ≤ 91) :
    decryptChar m k = (m - 32 - k + 26) % 26 + 97 := by
  simp only [decryptChar, isalpha_of_lower h1 h2, isupper_false_of_lower h1 h2,
    toupper_of_lower h1 h2, Bool.not_true, Bool.false_eq_true, if_false, if_true,
    CHAR_SPACE, ASCII_LOWER_OFFSET]
  rw [Int.tmod_eq_emod (by omega) (by omega)]

/-- Everything the claims need about one alphabetic character under
`encryptChar` with an uppercase-letter keystream character: the output is
a letter of the same case, its alphabet position is `(m + k) % 26`, and
`decryptChar` inverts it. -/
lemma encryptChar_master {m k : Int} (hm : isalpha m = true)
    (hk1 : 65 ≤ k) (hk2 : k ≤ 90) :
    isalpha (encryptChar m k) = true ∧
    isupper (encryptChar m k) = isupper m ∧
    islower (encryptChar m k) = islower m ∧
    alphaPos (encryptChar m k) = (alphaPos m + alphaPos k) % 26 ∧
    decryptChar (encryptChar m k) k = m := by
  rcases isalpha_iff.mp hm with ⟨h1, h2⟩ | ⟨h1, h2⟩
  · rw [encryptChar_upper h1 h2 (by omega)]
    have hb1 : 65 ≤ (m + k) % 26 + 65 := by omega
    have hb2 : (m + k) % 26 + 65 ≤ 90 := by omega
    refine ⟨isalpha_of_upper hb1 hb2, ?_, ?_, ?_, ?_⟩
    · rw [isupper_of_bounds hb1 hb2, isupper_of_bounds h1 h2]
    · rw [islower_false_of_upper hb1 hb2, islower_false_of_upper h1 h2]
    · rw [alphaPos, alphaPos, alphaPos, toupper_of_upper hb1 hb2,
        toupper_of_upper h1 h2, toupper_of_upper hk1 hk2]
      omega
    · rw [decryptChar_upper hb1 hb2 (by omega)]
      omega
  · rw [encryptChar_lower h1 h2 (by omega)]
    have hb1 : 97 ≤ (m - 32 + k) % 26 + 97 := by omega
    have hb2 : (m - 32 + k) % 26 + 97 ≤ 122 := by omega
    refine ⟨isalpha_of_lower hb1 hb2, ?_, ?_, ?_, ?_⟩
    · rw [isupper_false_of_lower hb1 hb2, isupper_false_of_lower h1 h2]
    · rw [islower_of_bounds hb1 hb2, islower_of_bounds h1 h2]
    · rw [alphaPos, alphaPos, alphaPos, toupper_of_lower hb1 hb2,
        toupper_of_lower h1 h2, toupper_of_upper hk1 hk2]
      omega
    · rw [decryptChar_lower hb1 hb2 (by omega)]
      omega

/-- Everything the claims need about one alphabetic character under
`decryptChar` with an uppercase-letter keystream character: the output is
a letter of the same case, its alphabet position is `(m - k + 26) % 26`,
and the value the implementation feeds to the `'A'`/`'a'` offset is
non-negative. -/
lemma decryptChar_master {m k : Int} (hm : isalpha m = true)
    (hk1 : 65 ≤ k) (hk2 : k ≤ 90) :
    isalpha (decryptChar m k) = true ∧
    isupper (decryptChar m k) = isupper m ∧
    islower (decryptChar m k) = islower m ∧
    alphaPos (decryptChar m k) = (alphaPos m - alphaPos k + 26) % 26 ∧
    0 ≤ Int.tmod (toupper m - k + CHAR_SPACE) CHAR_SPACE := by
  have hs : CHAR_SPACE = 26 := rfl
  rcases isalpha_iff.mp hm with ⟨h1, h2⟩ | ⟨h1, h2⟩
  · rw [decryptChar_upper h1 h2 (by omega), toupper_of_upper h1 h2, hs,
      Int.tmod_eq_emod (by omega) (by omega)]
    have hb1 : 65 ≤ (m - k + 26) % 26 + 65 := by omega
    have hb2 : (m - k + 26) % 26 + 65 ≤ 90 := by omega
    refine ⟨isalpha_of_upper hb1 hb2, ?_, ?_, ?_, by omega⟩
    · rw [isupper_of_bounds hb1 hb2, isupper_of_bounds h1 h2]
    · rw [islower_false_of_upper hb1 hb2, islower_false_of_upper h1 h2]
    · rw [alphaPos, alphaPos, alphaPos, toupper_of_upper hb1 hb2,
        toupper_of_upper h1 h2, toupper_of_upper hk1 hk2]
      omega
  · rw [decryptChar_lower h1 h2 (by omega), toupper_of_lower h1 h2, hs,
      Int.tmod_eq_emod (by omega) (by omega)]
    have hb1 : 97 ≤ (m - 32 - k + 26) % 26 + 97 := by omega
    have hb2 : (m - 32 - k + 26) % 26 + 97 ≤ 122 := by omega
    refine ⟨isalpha_of_lower hb1 hb2, ?_, ?_, ?_, by omega⟩
    · rw [isupper_false_of_lower hb1 hb2, isupper_false_of_lower h1 h2]
    · rw [islower_of_bounds hb1 hb2, islower_of_bounds h1 h2]
    · rw [alphaPos, alphaPos, alphaPos, toupper_of_lower hb1 hb2,
        toupper_of_lower h1 h2, toupper_of_upper hk1 hk2]
      omega

/-! The keystream as a list. -/

lemma keystreamGo_length (key : List Int) (msg : List Int) (j : Nat) :
    (keystreamGo key msg j).length = msg.length := by
  induction msg generalizing j with
  | nil => rfl
  | cons c rest ih => cases h : isalpha c <;> simp [keystreamGo, h, ih]

lemma keystreamGo_getD (key : List Int) (msg : List Int) (j i : Nat)
    (hi : i < msg.length) :
    (keystreamGo key msg j).getD i 0 =
      if isalpha (msg.getD i 0) = true
      then toupper (key.getD ((j + alphaCountBefore msg i) % key.length) 0)
      else 32 := by
  induction msg generalizing j i with
  | nil => simp at hi
  | cons c rest ih =>
    cases i with
    | zero =>
      have h0 : alphaCountBefore (c :: rest) 0 = 0 := rfl
      cases h : isalpha c <;>
        simp [keystreamGo, h, h0, List.getD_cons_zero]
    | succ n =>
      have hn : n < rest.length := by simpa using hi
      cases h : isalpha c with
      | true =>
        have hc : j + alphaCountBefore (c :: rest) (n + 1) =
            (j + 1) + (alphaCountBefore rest n) := by
          simp [alphaCountBefore, List.countP_cons, h]
          omega
        simp only [keystreamGo, h, if_true, List.getD_cons_succ, hc]
        exact ih (j + 1) n hn
      | false =>
        have hc : j + alphaCountBefore (c :: rest) (n + 1) =
            j + alphaCountBefore rest n := by
          simp [alphaCountBefore, List.countP_cons, h]
        simp only [keystreamGo, h, Bool.false_eq_true, if_false,
          List.getD_cons_succ, hc]
        exact ih j n hn

lemma generate_keystream_eq (message key : List Int) (hkey : key ≠ []) :
    generate_keystream message key = some (keystreamGo key message 0) := by
  have h0 : key.length ≠ 0 := by simpa using hkey
  rw [generate_keystream, if_neg]
  rintro ⟨h, -⟩
  exact h0 h

lemma generate_keystream_length {message key ks : List Int}
    (h : generate_keystream message key = some ks) :
    ks.length = message.length := by
  by_cases hc : key.length = 0 ∧ message.any isalpha
  · rw [generate_keystream, if_pos hc] at h
    cases h
  · rw [generate_keystream, if_neg hc] at h
    cases h
    exact keystreamGo_length key message 0

/-- The keystream character paired with an alphabetic message position,
for a non-empty key: it is the uppercased key character selected by the
running alphabetic index, and for an all-alphabetic key it is an
uppercase letter. -/
lemma keyChar_upper (key : List Int) (hkey : key ≠ [])
    (hkeyalpha : key.all isalpha = true) (j : Nat) :
    65 ≤ toupper (key.getD (j % key.length) 0) ∧
    toupper (key.getD (j % key.length) 0) ≤ 90 := by
  have hlen : 0 < key.length := List.length_pos.mpr hkey
  have hidx : j % key.length < key.length := Nat.mod_lt _ hlen
  have hmem : key.getD (j % key.length) 0 ∈ key := by
    rw [List.getD_eq_getElem key 0 hidx]
    exact List.getElem_mem hidx
  have halpha := List.all_eq_true.mp hkeyalpha _ hmem
  rcases isalpha_iff.mp halpha with ⟨h1, h2⟩ | ⟨h1, h2⟩
  · rw [toupper_of_upper h1 h2]
    exact ⟨h1, h2⟩
  · rw [toupper_of_lower h1 h2]
    omega

/-! Indexing `zipWith`. -/

lemma zipWith_getD (f : Int → Int → Int) (l1 l2 : List Int) (i : Nat)
    (h1 : i < l1.length) (h2 : i < l2.length) :
    (List.zipWith f l1 l2).getD i 0 = f (l1.getD i 0) (l2.getD i 0) := by
  induction l1 generalizing l2 i with
  | nil => simp at h1
  | cons a as ih =>
    cases l2 with
    | nil => simp at h2
    | cons b bs =>
      cases i with
      | zero => simp [List.zipWith]
      | succ n =>
        simp only [List.zipWith, List.getD_cons_succ]
        exact ih bs n (by simpa using h1) (by simpa using h2)

/-- Core of the round-trip law, by induction along the message with the
running alphabetic index generalized: encrypting under the keystream of the
message leaves the alphabetic skeleton unchanged (so decryption regenerates
the same keystream), and decrypting undoes the encryption. -/
lemma roundtrip_aux (key : List Int) (hkey : key ≠ [])
    (hkeyalpha : key.all isalpha = true) (msg : List Int) (j : Nat) :
    keystreamGo key (encrypt msg (keystreamGo key msg j)) j =
      keystreamGo key msg j ∧
    decrypt (encrypt msg (keystreamGo key msg j)) (keystreamGo key msg j) = msg := by
  induction msg generalizing j with
  | nil => exact ⟨rfl, rfl⟩
  | cons c rest ih =>
    cases h : isalpha c with
    | false =>
      have hks : keystreamGo key (c :: rest) j = 32 :: keystreamGo key rest j := by
        simp [keystreamGo, h]
      have henc : encryptChar c 32 = c := encryptChar_notalpha 32 h
      have hdec : decryptChar c 32 = c := decryptChar_notalpha 32 h
      rw [hks]
      constructor
      · show keystreamGo key
            (encryptChar c 32 :: encrypt rest (keystreamGo key rest j)) j = _
        rw [henc]
        show (if isalpha c = true then _ else
            32 :: keystreamGo key (encrypt rest (keystreamGo key rest j)) j) = _
        rw [if_neg (by simp [h]), (ih j).1]
      · show decryptChar (encryptChar c 32) 32 ::
            decrypt (encrypt rest (keystreamGo key rest j)) (keystreamGo key rest j) = _
        rw [henc, hdec, (ih j).2]
    | true =>
      have hk0 := keyChar_upper key hkey hkeyalpha j
      have hm := encryptChar_master h hk0.1 hk0.2
      have hks : keystreamGo key (c :: rest) j =
          toupper (key.getD (j % key.length) 0) ::
            keystreamGo key rest (j + 1) := by
        simp [keystreamGo, h]
      rw [hks]
      constructor
      · show keystreamGo key
            (encryptChar c (toupper (key.getD (j % key.length) 0)) ::
              encrypt rest (keystreamGo key rest (j + 1))) j = _
        show (if isalpha (encryptChar c (toupper (key.getD (j % key.length) 0))) = true
            then toupper (key.getD (j % key.length) 0) ::
              keystreamGo key
                (encrypt rest (keystreamGo key rest (j + 1))) (j + 1)
            else _) = _
        rw [if_pos hm.1, (ih (j + 1)).1]
      · show decryptChar (encryptChar c (toupper (key.getD (j % key.length) 0)))
              (toupper (key.getD (j % key.length) 0)) ::
            decrypt (encrypt rest (keystreamGo key rest (j + 1)))
              (keystreamGo key rest (j + 1)) = _
        rw [hm.2.2.2.2, (ih (j + 1)).2]

/-- Claim C1, counterexample to the claim as stated: the ASCII message "B"
(66) and the non-empty ASCII key "~" (126) do not round-trip — the
encryption is "K", but decrypting "K" under "~" gives "(" (40), because the
truncating `%` returns a negative value that the `'A'` offset turns into a
non-letter. -/
theorem C1_counterexample :
    (transform Modes.Encrypt [66] [126]).bind
      (fun out => transform Modes.Decrypt out [126]) = some [40] ∧
    some [40] ≠ some ([66] : List Int) ∧
    ([66] : List Int).all isAscii = true ∧
    ([126] : List Int).all isAscii = true ∧ ([126] : List Int) ≠ [] := by
  decide

/-- Claim C1 (amended: the key's characters must be alphabetic): for every
ASCII message and every non-empty key all of whose characters are letters,
decrypting the encryption of the message under the same key returns the
message exactly, case and non-alphabetic characters included. -/
theorem C1_roundtrip_alphabetic_key (message key : List Int)
    (_hmsg : message.all isAscii = true) (hkey : key ≠ [])
    (hkeyalpha : key.all isalpha = true) :
    (transform Modes.Encrypt message key).bind
      (fun out => transform Modes.Decrypt out key) = some message := by
  obtain ⟨h1, h2⟩ := roundtrip_aux key hkey hkeyalpha message 0
  rw [transform, generate_keystream_eq message key hkey]
  show transform Modes.Decrypt
    (encrypt message (keystreamGo key message 0)) key = some message
  rw [transform, generate_keystream_eq _ key hkey, h1]
  show some (decrypt (encrypt message (keystreamGo key message 0))
    (keystreamGo key message 0)) = some message
  rw [h2]

/-- Claim C1, witness: the round-trip at message "Hello, World!" and
key "key". -/
theorem C1_roundtrip_witness :
    (transform Modes.Encrypt (codes "Hello, World!") (codes "key")).bind
      (fun out => transform Modes.Decrypt out (codes "key")) =
      some (codes "Hello, World!") :=
  C1_roundtrip_alphabetic_key (codes "Hello, World!") (codes "key")
    (by decide) (by decide) (by decide)

/-- Claim C2: for every message and non-empty key the keystream exists, has
the message's length, equals the uppercased key character indexed by the
count of alphabetic message characters strictly before the position (modulo
the key length) at alphabetic positions, and is a non-alphabetic
placeholder at non-alphabetic positions; and for key "KEY" and message
"HELLO WORLD" it reads "KEYKE YKEYK". -/
theorem C2_keystream_spec (message key : List Int) (hkey : key ≠ []) :
    (∃ ks, generate_keystream message key = some ks ∧
      ks.length = message.length ∧
      ∀ i, i < message.length →
        (isalpha (message.getD i 0) = true →
          ks.getD i 0 =
            toupper (key.getD (alphaCountBefore message i % key.length) 0)) ∧
        (isalpha (message.getD i 0) = false →
          isalpha (ks.getD i 0) = false)) ∧
    generate_keystream (codes "HELLO WORLD") (codes "KEY") =
      some (codes "KEYKE YKEYK") := by
  constructor
  · refine ⟨keystreamGo key message 0, generate_keystream_eq message key hkey,
      keystreamGo_length key message 0, ?_⟩
    intro i hi
    constructor
    · intro h
      rw [keystreamGo_getD key message 0 i hi, if_pos h, Nat.zero_add]
    · intro h
      rw [keystreamGo_getD key message 0 i hi,
        if_neg (by rw [h]; exact Bool.false_ne_true)]
      decide
  · decide

/-- Claim C2, witness: the keystream of "HELLO WORLD" under "KEY". -/
theorem C2_keystream_witness :
    generate_keystream (codes "HELLO WORLD") (codes "KEY") =
      some (codes "KEYKE YKEYK") :=
  (C2_keystream_spec (codes "HELLO WORLD") (codes "KEY") (by decide)).2

/-- Claim C3: for every message, every non-empty all-alphabetic key, and
every alphabetic message position, the encrypted output there is a letter
whose alphabet position is `(m + k) % 26`; and
`encrypt("HELLO", "KEY") = "RIJVS"`. -/
theorem C3_encrypt_shift (message key : List Int) (hkey : key ≠ [])
    (hkeyalpha : key.all isalpha = true) (i : Nat) (hi : i < message.length)
    (halpha : isalpha (message.getD i 0) = true) :
    (∃ ks, generate_keystream message key = some ks ∧
      isalpha ((encrypt message ks).getD i 0) = true ∧
      alphaPos ((encrypt message ks).getD i 0) =
        (alphaPos (message.getD i 0) + alphaPos (ks.getD i 0)) % 26) ∧
    transform Modes.Encrypt (codes "HELLO") (codes "KEY") =
      some (codes "RIJVS") := by
  constructor
  · have hlen := keystreamGo_length key message 0
    have hget : (keystreamGo key message 0).getD i 0 =
        toupper (key.getD ((0 + alphaCountBefore message i) % key.length) 0) := by
      rw [keystreamGo_getD key message 0 i hi, if_pos halpha]
    have hk := keyChar_upper key hkey hkeyalpha (0 + alphaCountBefore message i)
    rw [← hget] at hk
    have hz := zipWith_getD encryptChar message (keystreamGo key message 0) i hi
      (by omega)
    have hm := encryptChar_master halpha hk.1 hk.2
    exact ⟨keystreamGo key message 0, generate_keystream_eq message key hkey,
      by rw [encrypt, hz]; exact hm.1,
      by rw [encrypt, hz]; exact hm.2.2.2.1⟩
  · decide

/-- Claim C3, witness: the shift law applied at the single-letter message
"H" (72) with key "K" (75), projected to the concrete "HELLO"/"KEY"
scenario. -/
theorem C3_encrypt_witness :
    transform Modes.Encrypt (codes "HELLO") (codes "KEY") =
      some (codes "RIJVS") :=
  (C3_encrypt_shift [72] [75] (by decide) (by decide) 0 (by decide) (by decide)).2

/-- Claim C4, counterexample to the claim as stated: with the non-empty key
"~" (126) and message "A" (65), the value the implementation uses before
converting back to a character is `tmod (65 - 126 + 26) 26 = -9`, which is
negative, and the decrypted output 56 (`'8'`) is not an alphabet
character. -/
theorem C4_counterexample :
    generate_keystream [65] [126] = some [126] ∧
    Int.tmod (toupper 65 - 126 + CHAR_SPACE) CHAR_SPACE = -9 ∧
    decrypt [65] [126] = [56] ∧
    isalpha 56 = false ∧ isalpha 65 = true ∧ ([126] : List Int) ≠ [] := by
  decide

/-- Claim C4 (amended: the key's characters must be alphabetic): for every
message, every non-empty all-alphabetic key, and every alphabetic message
position, the decrypted output there is the letter at alphabet position
`(m - k + 26) % 26`, and the value the implementation uses as an alphabet
index is non-negative before it is converted back to a character. -/
theorem C4_decrypt_shift_alphabetic_key (message key : List Int) (hkey : key ≠ [])
    (hkeyalpha : key.all isalpha = true) (i : Nat) (hi : i < message.length)
    (halpha : isalpha (message.getD i 0) = true) :
    ∃ ks, generate_keystream message key = some ks ∧
      isalpha ((decrypt message ks).getD i 0) = true ∧
      alphaPos ((decrypt message ks).getD i 0) =
        (alphaPos (message.getD i 0) - alphaPos (ks.getD i 0) + 26) % 26 ∧
      0 ≤ Int.tmod (toupper (message.getD i 0) - ks.getD i 0 + CHAR_SPACE)
        CHAR_SPACE := by
  have hlen := keystreamGo_length key message 0
  have hget : (keystreamGo key message 0).getD i 0 =
      toupper (key.getD ((0 + alphaCountBefore message i) % key.length) 0) := by
    rw [keystreamGo_getD key message 0 i hi, if_pos halpha]
  have hk := keyChar_upper key hkey hkeyalpha (0 + alphaCountBefore message i)
  rw [← hget] at hk
  have hz := zipWith_getD decryptChar message (keystreamGo key message 0) i hi
    (by omega)
  have hm := decryptChar_master halpha hk.1 hk.2
  exact ⟨keystreamGo key message 0, generate_keystream_eq message key hkey,
    by rw [decrypt, hz]; exact hm.1,
    by rw [decrypt, hz]; exact hm.2.2.2.1,
    hm.2.2.2.2⟩

/-- Claim C4, witness: the decrypt shift law at message "R" (82) and
key "K" (75). -/
theorem C4_decrypt_witness :
    ∃ ks, generate_keystream [82] [75] = some ks ∧
      isalpha ((decrypt [82] ks).getD 0 0) = true ∧
      alphaPos ((decrypt [82] ks).getD 0 0) =
        (alphaPos (([82] : List Int).getD 0 0) - alphaPos (ks.getD 0 0) + 26) % 26 ∧
      0 ≤ Int.tmod (toupper (([82] : List Int).getD 0 0) - ks.getD 0 0 + CHAR_SPACE)
        CHAR_SPACE :=
  C4_decrypt_shift_alphabetic_key [82] [75] (by decide) (by decide) 0
    (by decide) (by decide)

/-- Claim C5: contrary to the claim, an empty key passes the CLI checks
unrejected — `parse_args` accepts `-k ""` — and the keystream generator IS
run with the empty key, where the first alphabetic message character makes
the C code divide by zero (the `none` result); no InvalidKey error path
exists anywhere in the program. -/
theorem C5_empty_key_reaches_keystream :
    parse_args ["./vigenere", "A", "-m", "0", "-k", ""] =
      Except.ok ⟨Modes.Encrypt, "A", ""⟩ ∧
    generate_keystream (codes "A") (codes "") = none ∧
    run ["./vigenere", "A", "-m", "0", "-k", ""] = Except.ok none := by
  decide

/-- Claim C6: contrary to the claim, an invocation that supplies a message
and a `-k KEY` pair but omits `-m` is rejected with a usage error and exit
code 1 — `parse_args` demands the `-m` flag in `argv[2]` — even though the
program's own usage string brackets `-m MODE` as optional with default 0. -/
theorem C6_missing_m_flag_rejected :
    parse_args ["./vigenere", "HELLO", "-k", "KEY"] = Except.error Docs.Usage ∧
    run ["./vigenere", "HELLO", "-k", "KEY"] = Except.error Docs.Usage := by
  decide

/-- The `-h` comparison `strncmp(argv[1], "-h", strlen(argv[1]))` accepts
exactly the prefixes of "-h"; for any other first argument it fails. -/
lemma flagMatch_dashH_false (s : String) (h1 : s ≠ "") (h2 : s ≠ "-")
    (h3 : s ≠ "-h") : flagMatch s "-h" = false := by
  rw [flagMatch]
  cases hs : s.toList with
  | nil =>
    exact absurd (String.ext (by rw [show s.data = s.toList from rfl, hs])) h1
  | cons c cs =>
    cases cs with
    | nil =>
      by_cases hc : c = '-'
      · subst hc
        exact absurd (String.ext (by rw [show s.data = s.toList from rfl, hs])) h2
      · simp [List.isPrefixOf, hc]
    | cons c2 cs2 =>
      cases cs2 with
      | nil =>
        by_cases hc1 : c = '-'
        · by_cases hc2 : c2 = 'h'
          · subst hc1; subst hc2
            exact absurd (String.ext (by rw [show s.data = s.toList from rfl, hs])) h3
          · simp [List.isPrefixOf, hc2]
        · simp [List.isPrefixOf, hc1]
      | cons c3 cs3 => simp [List.isPrefixOf]

/-- Claim C7, counterexample to the claim as stated: `-m 2` has a value
other than 0 or 1, yet the program accepts it (as encrypt) and prints the
transformed output instead of a usage error. -/
theorem C7_counterexample :
    run ["./vigenere", "HELLO", "-m", "2", "-k", "KEY"] =
      Except.ok (some (codes "RIJVS")) := by
  decide

/-- Claim C7 (amended: "malformed" means the first character of the `-m`
value is not a decimal digit, or the value is missing; a value whose first
character is a digit is accepted whatever follows): in both rejected cases
the program prints the usage line to stderr and exits with code 1,
producing no transformed output. -/
theorem C7_malformed_mode_rejected (prog message v key : String)
    (hm1 : message ≠ "") (hm2 : message ≠ "-") (hm3 : message ≠ "-h")
    (hd : isdigit ((codes v).getD 0 0) = false) :
    parse_args [prog, message, "-m", v, "-k", key] = Except.error Docs.Usage ∧
    parse_args [prog, message, "-m"] = Except.error Docs.Usage := by
  have hh := flagMatch_dashH_false message hm1 hm2 hm3
  have hmm : flagMatch "-m" "-m" = true := by decide
  have hd2 : isdigit ((codes v)[0]?.getD 0) = false := by simpa using hd
  constructor
  · simp [parse_args, hh, hm1, hmm, hd2]
  · simp [parse_args, hh, hm1]

/-- Claim C7, witness: `-m x` (non-digit value) with an otherwise valid
command line is rejected with a usage error. -/
theorem C7_malformed_witness :
    parse_args ["./vigenere", "HELLO", "-m", "x", "-k", "KEY"] =
      Except.error Docs.Usage :=
  (C7_malformed_mode_rejected "./vigenere" "HELLO" "x" "KEY"
    (by decide) (by decide) (by decide) (by decide)).1

/-- Claim C8: at every non-alphabetic message position, both transforms
copy the message character unchanged, whatever the key. -/
theorem C8_passthrough (mode : Modes) (message key ks : List Int)
    (hks : generate_keystream message key = some ks) (i : Nat)
    (hi : i < message.length) (halpha : isalpha (message.getD i 0) = false) :
    (applyMode mode message ks).getD i 0 = message.getD i 0 := by
  have hlen : ks.length = message.length := generate_keystream_length hks
  cases mode with
  | Encrypt =>
    show (encrypt message ks).getD i 0 = _
    rw [encrypt, zipWith_getD encryptChar message ks i hi (by omega)]
    exact encryptChar_notalpha _ halpha
  | Decrypt =>
    show (decrypt message ks).getD i 0 = _
    rw [decrypt, zipWith_getD decryptChar message ks i hi (by omega)]
    exact decryptChar_notalpha _ halpha

/-- Claim C8, witness: the space of "A B" passes through encryption
unchanged. -/
theorem C8_passthrough_witness :
    (applyMode Modes.Encrypt (codes "A B") [75, 32, 75]).getD 1 0 =
      (codes "A B").getD 1 0 :=
  C8_passthrough Modes.Encrypt (codes "A B") (codes "K") [75, 32, 75]
    (by decide) 1 (by decide) (by decide)

/-- Claim C9, counterexample to the claim as stated: with the non-empty key
"}" (125) in decrypt mode, the lowercase message "a" (97) comes out as the
UPPERCASE letter "Y" (89) — the case is not preserved. -/
theorem C9_counterexample :
    transform Modes.Decrypt [97] [125] = some [89] ∧
    islower 97 = true ∧ isupper 89 = true ∧ islower 89 = false ∧
    ([125] : List Int) ≠ [] := by
  decide

/-- Claim C9 (amended: the key's characters must be alphabetic): in both
modes, at every alphabetic message position, the output character's case
matches the message character's case. -/
theorem C9_case_preserved_alphabetic_key (mode : Modes) (message key : List Int)
    (hkey : key ≠ []) (hkeyalpha : key.all isalpha = true) (i : Nat)
    (hi : i < message.length) (halpha : isalpha (message.getD i 0) = true) :
    ∃ ks, generate_keystream message key = some ks ∧
      isupper ((applyMode mode message ks).getD i 0) =
        isupper (message.getD i 0) ∧
      islower ((applyMode mode message ks).getD i 0) =
        islower (message.getD i 0) := by
  have hlen := keystreamGo_length key message 0
  have hget : (keystreamGo key message 0).getD i 0 =
      toupper (key.getD ((0 + alphaCountBefore message i) % key.length) 0) := by
    rw [keystreamGo_getD key message 0 i hi, if_pos halpha]
  have hk := keyChar_upper key hkey hkeyalpha (0 + alphaCountBefore message i)
  rw [← hget] at hk
  cases mode with
  | Encrypt =>
    have hz := zipWith_getD encryptChar message (keystreamGo key message 0) i hi
      (by omega)
    have hm := encryptChar_master halpha hk.1 hk.2
    exact ⟨keystreamGo key message 0, generate_keystream_eq message key hkey,
      by show isupper ((encrypt message _).getD i 0) = _
         rw [encrypt, hz]; exact hm.2.1,
      by show islower ((encrypt message _).getD i 0) = _
         rw [encrypt, hz]; exact hm.2.2.1⟩
  | Decrypt =>
    have hz := zipWith_getD decryptChar message (keystreamGo key message 0) i hi
      (by omega)
    have hm := decryptChar_master halpha hk.1 hk.2
    exact ⟨keystreamGo key message 0, generate_keystream_eq message key hkey,
      by show isupper ((decrypt message _).getD i 0) = _
         rw [decrypt, hz]; exact hm.2.1,
      by show islower ((decrypt message _).getD i 0) = _
         rw [decrypt, hz]; exact hm.2.2.1⟩

/-- Claim C9, witness: case preservation at the lowercase message "h" (104)
under key "K" (75) in decrypt mode. -/
theorem C9_case_witness :
    ∃ ks, generate_keystream [104] [75] = some ks ∧
      isupper ((applyMode Modes.Decrypt [104] ks).getD 0 0) =
        isupper (([104] : List Int).getD 0 0) ∧
      islower ((applyMode Modes.Decrypt [104] ks).getD 0 0) =
        islower (([104] : List Int).getD 0 0) :=
  C9_case_preserved_alphabetic_key Modes.Decrypt [104] [75] (by decide)
    (by decide) 0 (by decide) (by decide)

/-- Claim C10, counterexample to the claim as stated: for MESSAGE = "-h"
(and digit-leading V = "2") the invocation does not parse successfully —
the first positional argument is taken as the help flag and the program
exits with the help text. -/
theorem C10_counterexample :
    parse_args ["./vigenere", "-h", "-m", "2", "-k", "KEY"] =
      Except.error Docs.Help := by
  decide

/-- Claim C10 (amended: MESSAGE must be none of "", "-", "-h", the strings
`strncmp(argv[1], "-h", strlen(argv[1]))` accepts as the help flag): for
every invocation `prog MESSAGE -m V -k KEY` whose V starts with a decimal
digit, parsing succeeds and the mode is the parity of that character's
code — Encrypt when even, Decrypt when odd — with the remaining characters
of V ignored. -/
theorem C10_mode_parity (prog message v key : String)
    (hm1 : message ≠ "") (hm2 : message ≠ "-") (hm3 : message ≠ "-h")
    (hd : isdigit ((codes v).getD 0 0) = true) :
    parse_args [prog, message, "-m", v, "-k", key] =
      Except.ok
        ⟨if ((codes v).getD 0 0) % 2 = 0 then Modes.Encrypt else Modes.Decrypt,
         message, key⟩ := by
  have hh := flagMatch_dashH_false message hm1 hm2 hm3
  have hmm : flagMatch "-m" "-m" = true := by decide
  have hkk : flagMatch "-k" "-k" = true := by decide
  have hb := isdigit_iff.mp hd
  have hd2 : isdigit ((codes v)[0]?.getD 0) = true := by simpa using hd
  have ht : Int.tmod ((codes v)[0]?.getD 0) 2 = ((codes v)[0]?.getD 0) % 2 := by
    have h0 := @Int.tmod_eq_emod ((codes v).getD 0 0) 2 (by omega) (by omega)
    simpa using h0
  simp [parse_args, hh, hm1, hmm, hkk, hd2, ht]

/-- Claim C10, witness: `-m 3` (odd digit, not 1) selects decryption. -/
theorem C10_mode_witness :
    parse_args ["./vigenere", "HELLO", "-m", "3", "-k", "KEY"] =
      Except.ok ⟨Modes.Decrypt, "HELLO", "KEY"⟩ :=
  Eq.trans
    (C10_mode_parity "./vigenere" "HELLO" "3" "KEY"
      (by decide) (by decide) (by decide) (by decide))
    (by decide)

end Vigenere
